import Mathlib

/-!
Verification of the completion staging core of cursortab.nvim.

The staging implementation of the `text` package (the functions
`ClusterChanges`, `ShouldSplitCompletion`, `CreateStagesFromClusters`,
`clusterDistanceFromCursor` and `createCompletionFromCluster`) is embedded
below as executable Lean definitions.  Go line numbers are `Int`; a Go map
is represented by an association list whose order models the (arbitrary)
iteration order; a Go slice that may be `nil` is an `Option (List _)` with
`none` standing for `nil`; a result of `none` in functions that index into
slices stands for a Go runtime panic.  Go's stable sort is modelled by a
stable insertion sort with the corresponding `le` comparator, and a Go
`int32` conversion is modelled by explicit wrap-around arithmetic.
-/

/-- The kinds of line changes used by the `text` package.  Clustering only
inspects whether a change is one of the two group kinds. -/
inductive DiffLineType where
  | lineModification
  | lineAddition
  | lineDeletion
  | lineDeleteChars
  | lineInsertChars
  | lineModificationGroup
  | lineAdditionGroup
  deriving DecidableEq, Repr, Inhabited

/-- `LineDiff` record of the `text` package: one diff operation.  The zero
value (Go's map access default) is the `Inhabited` default. -/
structure LineDiff where
  type : DiffLineType := .lineModification
  lineNumber : Int := 0
  startLine : Int := 0
  endLine : Int := 0
  content : String := ""
  deriving DecidableEq, Repr, Inhabited

/-- `DiffResult`: the map from new-text line number to diff operation.  The
association list order models the map's iteration order. -/
structure DiffResult where
  changes : List (Int × LineDiff)
  deriving DecidableEq, Repr, Inhabited

/-- `ChangeCluster`: a group of nearby changes (within threshold lines). -/
structure ChangeCluster where
  startLine : Int
  endLine : Int
  changes : List (Int × LineDiff)
  deriving DecidableEq, Repr, Inhabited

/-- Boolean `≤` on `Int`, the comparator under `sort.Ints`. -/
def intLe (a b : Int) : Bool := decide (a ≤ b)

/-- Insert `a` into `l` in front of the first element `b` with `le a b`.
Together with `insertionSortLe` this models a stable sort by `le`. -/
def orderedInsertLe {α : Type} (le : α → α → Bool) (a : α) : List α → List α
  | [] => [a]
  | b :: l => if le a b then a :: b :: l else b :: orderedInsertLe le a l

/-- Stable insertion sort with comparator `le`; extensionally equal to Go's
`sort.SliceStable` run with the strict comparator `fun a b => !(le b a)`,
and to `sort.Ints` when `le` is `intLe`. -/
def insertionSortLe {α : Type} (le : α → α → Bool) : List α → List α
  | [] => []
  | a :: l => orderedInsertLe le a (insertionSortLe le l)

/-- Go map read `m[k]`: the first binding of `k`, or the zero value. -/
def lookupD (k : Int) : List (Int × LineDiff) → LineDiff
  | [] => default
  | p :: rest => if k = p.1 then p.2 else lookupD k rest

/-- The effective end line of a change: group-typed changes contribute
their explicit `EndLine`, all others their own line number. -/
def effEndLine (lineNum : Int) (change : LineDiff) : Int :=
  if change.type = .lineModificationGroup ∨ change.type = .lineAdditionGroup then
    change.endLine
  else lineNum

/-- The sweep loop of `ClusterChanges`, run over the sorted line numbers
that remain after the current cluster was opened. -/
def clusterSweep (changes : List (Int × LineDiff)) (threshold : Int) :
    List Int → ChangeCluster → List ChangeCluster
  | [], cur => [cur]
  | n :: rest, cur =>
    let change := lookupD n changes
    let e := effEndLine n change
    if n - cur.endLine ≤ threshold then
      clusterSweep changes threshold rest
        { cur with
          changes := cur.changes ++ [(n, change)],
          endLine := if cur.endLine < e then e else cur.endLine }
    else
      cur :: clusterSweep changes threshold rest ⟨n, e, [(n, change)]⟩

/-- `ClusterChanges` groups nearby changes (within `threshold` lines) into
clusters.  `none` models the `nil` slice returned for an empty diff; a
non-empty diff always yields a non-nil slice. -/
def ClusterChanges (diff : DiffResult) (threshold : Int) :
    Option (List ChangeCluster) :=
  if diff.changes.isEmpty then none
  else
    match insertionSortLe intLe (diff.changes.map Prod.fst).dedup with
    | [] => some []
    | n :: rest =>
      let change := lookupD n diff.changes
      some (clusterSweep diff.changes threshold rest
        ⟨n, effEndLine n change, [(n, change)]⟩)

/-- The cluster sequence seen by callers of `ClusterChanges` (a `nil` slice
and an empty slice have the same elements). -/
def clustersOf (diff : DiffResult) (threshold : Int) : List ChangeCluster :=
  (ClusterChanges diff threshold).getD []

/-- `ShouldSplitCompletion` returns true if there are gaps greater than
`threshold` between changes. -/
def ShouldSplitCompletion (diff : DiffResult) (threshold : Int) : Bool :=
  decide (1 < (clustersOf diff threshold).length)

/-- `types.Completion`: the content replacing a 1-indexed inclusive buffer
line range. -/
structure Completion where
  startLine : Int
  endLineInc : Int
  lines : List String
  deriving DecidableEq, Repr, Inhabited

/-- `types.CursorPredictionTarget`.  In Go `LineNumber` is an `int32`; the
value stored here is the wrapped result of that conversion. -/
structure CursorPredictionTarget where
  relativePath : String
  lineNumber : Int
  shouldRetrigger : Bool
  deriving DecidableEq, Repr, Inhabited

/-- `types.CompletionStage`. -/
structure CompletionStage where
  completion : Completion
  cursorTarget : CursorPredictionTarget
  isLastStage : Bool
  deriving DecidableEq, Repr, Inhabited

/-- Go's `int32(n)` conversion of a 64-bit `n`: wrap-around into
`[-2^31, 2^31)`. -/
def toInt32 (n : Int) : Int :=
  (n + 2147483648) % 4294967296 - 2147483648

/-- `n` lies in the value range of a Go `int32`. -/
def int32Range (n : Int) : Prop :=
  -2147483648 ≤ n ∧ n < 2147483648

/-- The extraction loop of `createCompletionFromCluster`:
`for i := startLine; i <= endLine && i-1 < len(newLines); i++`, collecting
`newLines[i-1]`.  `cnt` counts the iterations left before `i` passes
`endLine`; `none` models the Go panic on a negative index. -/
def extractLoop (newLines : List String) : Int → Nat → Option (List String)
  | _, 0 => some []
  | i, cnt + 1 =>
    if i - 1 < (newLines.length : Int) then
      if 0 ≤ i - 1 then
        match extractLoop newLines (i + 1) cnt with
        | some rest => some (newLines.getD (i - 1).toNat "" :: rest)
        | none => none
      else none
    else some []

/-- Extract `newLines[startLine-1 .. endLine-1]`, stopping early when
`newLines` is too short (`none` models a panic on `startLine ≤ 0`). -/
def extractLines (newLines : List String) (startLine endLine : Int) :
    Option (List String) :=
  extractLoop newLines startLine (endLine - startLine + 1).toNat

/-- The padding loop of `createCompletionFromCluster`: append empty strings
until the line count reaches `target`. -/
def padTo (lines : List String) (target : Int) : List String :=
  lines ++ List.replicate (target - lines.length).toNat ""

/-- `createCompletionFromCluster` creates a `Completion` from a cluster of
changes, mapping cluster-relative coordinates to buffer coordinates with
`baseLineOffset` and right-padding with empty lines when `newLines` is
short. -/
def createCompletionFromCluster (cluster : ChangeCluster)
    (newLines : List String) (baseLineOffset : Int) : Option Completion :=
  match extractLines newLines cluster.startLine cluster.endLine with
  | none => none
  | some ls =>
    some ⟨cluster.startLine + baseLineOffset - 1,
          cluster.endLine + baseLineOffset - 1,
          padTo ls (cluster.endLine - cluster.startLine + 1)⟩

/-- `clusterDistanceFromCursor` calculates the minimum distance from the
cursor to a cluster, after converting cluster coordinates to buffer
coordinates with `baseLineOffset`. -/
def clusterDistanceFromCursor (cluster : ChangeCluster)
    (cursorRow baseLineOffset : Int) : Int :=
  let bufferStartLine := cluster.startLine + baseLineOffset - 1
  let bufferEndLine := cluster.endLine + baseLineOffset - 1
  if bufferStartLine ≤ cursorRow ∧ cursorRow ≤ bufferEndLine then 0
  else if cursorRow < bufferStartLine then bufferStartLine - cursorRow
  else cursorRow - bufferEndLine

/-- The comparator under the stable sort in `CreateStagesFromClusters`:
`le a b` iff `a` need not come after `b`, i.e. the negation of the Go
`less` function applied to `(b, a)`: distance from the cursor first,
cluster start line as tiebreaker. -/
def clusterLe (cursorRow baseLineOffset : Int) (a b : ChangeCluster) : Bool :=
  let da := clusterDistanceFromCursor a cursorRow baseLineOffset
  let db := clusterDistanceFromCursor b cursorRow baseLineOffset
  if da = db then decide (a.startLine ≤ b.startLine) else decide (da < db)

/-- The stage construction loop of `CreateStagesFromClusters`, run over the
distance-sorted clusters.  A non-last stage's cursor target points at the
start of the next cluster; the last stage's points at its own end with the
retrigger flag set.  `LineNumber` undergoes Go's `int32` conversion. -/
def buildStages (newLines : List String) (filePath : String)
    (baseLineOffset : Int) : List ChangeCluster → Option (List CompletionStage)
  | [] => some []
  | [c] =>
    match createCompletionFromCluster c newLines baseLineOffset with
    | none => none
    | some comp =>
      some [⟨comp, ⟨filePath, toInt32 (c.endLine + baseLineOffset - 1), true⟩, true⟩]
  | c :: next :: rest =>
    match createCompletionFromCluster c newLines baseLineOffset with
    | none => none
    | some comp =>
      match buildStages newLines filePath baseLineOffset (next :: rest) with
      | none => none
      | some tail =>
        some (⟨comp, ⟨filePath, toInt32 (next.startLine + baseLineOffset - 1), false⟩,
                false⟩ :: tail)

/-- `CreateStagesFromClusters` builds stages sorted by cursor distance.
The `nil` result for empty input is identified with the empty sequence;
`none` models a Go panic raised while building a completion.  The
`originalLines` argument is accepted and ignored, as in the source. -/
def CreateStagesFromClusters (clusters : List ChangeCluster)
    (originalLines newLines : List String) (cursorRow : Int)
    (filePath : String) (baseLineOffset : Int) :
    Option (List CompletionStage) :=
  if clusters.isEmpty then some []
  else
    buildStages newLines filePath baseLineOffset
      (insertionSortLe (clusterLe cursorRow baseLineOffset) clusters)

/-- The staging core as composed by the callers: cluster the diff, then
assemble the stages. -/
def stagingCore (diff : DiffResult) (threshold : Int)
    (originalLines newLines : List String) (cursorRow : Int)
    (filePath : String) (baseLineOffset : Int) :
    Option (List CompletionStage) :=
  CreateStagesFromClusters (clustersOf diff threshold) originalLines newLines
    cursorRow filePath baseLineOffset

/-- The claim's distance of a cursor row from a buffer range: zero inside
`[lo, hi]`, otherwise the gap to the nearer endpoint. -/
def cursorGapToRange (cursorRow lo hi : Int) : Int :=
  if lo ≤ cursorRow ∧ cursorRow ≤ hi then 0
  else min (cursorRow - lo).natAbs (cursorRow - hi).natAbs

/-- The sort key the staging result must be ordered by: cursor distance of
the stage's buffer range, then its buffer start line. -/
def stageKey (cursorRow : Int) (s : CompletionStage) : Int × Int :=
  (cursorGapToRange cursorRow s.completion.startLine s.completion.endLineInc,
   s.completion.startLine)

/-- Lexicographic order on pairs of integers. -/
def lexLeInt (a b : Int × Int) : Prop :=
  a.1 < b.1 ∨ (a.1 = b.1 ∧ a.2 ≤ b.2)

/-- The change kinds of the newer staging pipeline (`LineChange` in the
tests of `CreateStages`). -/
inductive ChangeType where
  | changeModification
  | changeAddition
  | changeDeletion
  | changeDeleteChars
  | changeInsertChars
  deriving DecidableEq, Repr, Inhabited

/-- `LineChange` of the newer staging pipeline: a typed change record with
new-text and old-text line numbers (`-1` when absent). -/
structure LineChange where
  type : ChangeType := .changeModification
  newLineNum : Int := 0
  oldLineNum : Int := 0
  content : String := ""
  oldContent : String := ""
  deriving DecidableEq, Repr, Inhabited

/-- A cluster of the newer pipeline: a new-text line range together with
the changes keyed into it, in ascending key order. -/
structure StageCluster where
  startLine : Int
  endLine : Int
  changes : List (Int × LineChange)
  deriving DecidableEq, Repr, Inhabited

/-- A stage of the newer pipeline, reduced to the fields the buffer-range
claims speak about. -/
structure BufferStage where
  bufferStart : Int
  bufferEnd : Int
  lines : List String
  deriving DecidableEq, Repr, Inhabited

/-- Every change of the cluster is an `Addition` (and there is at least
one change). -/
def isPureAddition (c : StageCluster) : Bool :=
  !c.changes.isEmpty && c.changes.all (fun q => q.2.type = .changeAddition)

/-- The anchor of a pure-addition cluster: the `OldLineNum` shared by its
additions (taken from the first change). -/
def clusterAnchor (c : StageCluster) : Int :=
  ((c.changes.head?).map (fun q => q.2.oldLineNum)).getD 0

/-- Modelled from the spec: the Stage Assembler of the newer pipeline
(`CreateStages`, spec section 4.E) is not among the sources; only its
tests are.  Per step 3 of that section, a pure-addition cluster's stage
starts at the insertion point one line after the anchor
(`buffer_start = anchor_old_line_num + base_line_offset`) and its lines
are the new-text lines keyed in the cluster, in order, so that
`buffer_end = buffer_start + len(lines) - 1`; a mixed or replacement
cluster's stage covers the cluster's new-text range shifted into buffer
coordinates (`buffer_start = cluster.start_line + base_line_offset - 1`),
its lines cut from `new_lines` and right-padded. -/
def stageOfCluster (c : StageCluster) (newLines : List String)
    (baseLineOffset : Int) : BufferStage :=
  if isPureAddition c then
    let ls := c.changes.map (fun q => q.2.content)
    let bs := clusterAnchor c + baseLineOffset
    ⟨bs, bs + ls.length - 1, ls⟩
  else
    let ls := padTo ((extractLines newLines c.startLine c.endLine).getD [])
      (c.endLine - c.startLine + 1)
    ⟨c.startLine + baseLineOffset - 1, c.endLine + baseLineOffset - 1, ls⟩

/-- Modelled from the spec: the stage sequence the newer Stage Assembler
builds for a cluster list, one stage per cluster. -/
def stagesOfClusters (cs : List StageCluster) (newLines : List String)
    (baseLineOffset : Int) : List BufferStage :=
  cs.map (fun c => stageOfCluster c newLines baseLineOffset)

/-- Modelled from the spec: `types.ProviderType` is a string-typed enum
(the factory formats it with `%s` into its error message); its three
constant values and the per-provider constructors live outside the given
sources, so the factory is parameterised by them.  A Go constructor's
`(Provider, error)` pair is an `Option Provider × Option String`. -/
def NewProvider {Provider Config : Type}
    (zetaType autoCompleteType sweepType : String)
    (zetaNew autoCompleteNew sweepNew : Config → Option Provider × Option String)
    (providerType : String) (config : Config) :
    Option Provider × Option String :=
  if providerType = zetaType then zetaNew config
  else if providerType = autoCompleteType then autoCompleteNew config
  else if providerType = sweepType then sweepNew config
  else (none, some ("unsupported provider type: " ++ providerType))

/-- A small heap of Go backing arrays, enough to express which slices
`CreateStagesFromClusters` writes to: the cluster arrays and the string
arrays live at `Nat` addresses. -/
structure GoHeap where
  clusterArrays : List (List ChangeCluster)
  stringArrays : List (List String)
  deriving Repr

/-- Read the cluster array at address `r`. -/
def readClusters (h : GoHeap) (r : Nat) : List ChangeCluster :=
  h.clusterArrays.getD r []

/-- Read the string array at address `r`. -/
def readStrings (h : GoHeap) (r : Nat) : List String :=
  h.stringArrays.getD r []

/-- Allocate a fresh cluster array (`make`), returning its address. -/
def allocClusters (h : GoHeap) (content : List ChangeCluster) :
    GoHeap × Nat :=
  (⟨h.clusterArrays ++ [content], h.stringArrays⟩, h.clusterArrays.length)

/-- Overwrite the cluster array at address `r`. -/
def writeClusters (h : GoHeap) (r : Nat) (content : List ChangeCluster) :
    GoHeap :=
  ⟨h.clusterArrays.set r content, h.stringArrays⟩

/-- `CreateStagesFromClusters` with its heap effects made explicit: the
caller's `clusters`, `originalLines` and `newLines` slices live in the
heap; the function allocates `sortedClusters` with `make`, copies the
input into it, sorts that copy in place, and then only reads. -/
def CreateStagesFromClustersH (h : GoHeap)
    (clustersRef origRef newRef : Nat) (cursorRow : Int)
    (filePath : String) (baseLineOffset : Int) :
    GoHeap × Option (List CompletionStage) :=
  if (readClusters h clustersRef).isEmpty then (h, some [])
  else
    let alloc := allocClusters h
      (List.replicate (readClusters h clustersRef).length default)
    let h1 := alloc.1
    let sortedRef := alloc.2
    let h2 := writeClusters h1 sortedRef (readClusters h1 clustersRef)
    let h3 := writeClusters h2 sortedRef
      (insertionSortLe (clusterLe cursorRow baseLineOffset)
        (readClusters h2 sortedRef))
    (h3, buildStages (readStrings h3 newRef) filePath baseLineOffset
      (readClusters h3 sortedRef))

theorem perm_orderedInsertLe {α : Type} (le : α → α → Bool) (a : α) :
    ∀ l : List α, List.Perm (orderedInsertLe le a l) (a :: l)
  | [] => List.Perm.refl _
  | b :: l => by
    unfold orderedInsertLe
    by_cases h : le a b = true
    · simp [h]
    · simp only [h, if_false]
      exact ((perm_orderedInsertLe le a l).cons b).trans (List.Perm.swap a b l)

theorem perm_insertionSortLe {α : Type} (le : α → α → Bool) :
    ∀ l : List α, List.Perm (insertionSortLe le l) l
  | [] => List.Perm.refl _
  | a :: l => by
    unfold insertionSortLe
    exact (perm_orderedInsertLe le a (insertionSortLe le l)).trans
      ((perm_insertionSortLe le l).cons a)

theorem pairwise_orderedInsertLe {α : Type} (le : α → α → Bool)
    (htot : ∀ a b, le a b = true ∨ le b a = true)
    (htrans : ∀ a b c, le a b = true → le b c = true → le a c = true)
    (a : α) : ∀ l : List α, List.Pairwise (fun x y => le x y = true) l →
      List.Pairwise (fun x y => le x y = true) (orderedInsertLe le a l)
  | [], _ => by simp [orderedInsertLe]
  | b :: l, hp => by
    unfold orderedInsertLe
    by_cases h : le a b = true
    · simp only [h, if_true]
      refine List.Pairwise.cons ?_ hp
      intro c hc
      rcases List.mem_cons.mp hc with rfl | hc
      · exact h
      · exact htrans a b c h (List.rel_of_pairwise_cons hp hc)
    · simp only [h, if_false]
      refine List.Pairwise.cons ?_
        (pairwise_orderedInsertLe le htot htrans a l hp.of_cons)
      intro c hc
      rcases List.mem_cons.mp ((perm_orderedInsertLe le a l).mem_iff.mp hc) with rfl | hc2
      · rcases htot c b with hcb | hbc
        · exact absurd hcb h
        · exact hbc
      · exact List.rel_of_pairwise_cons hp hc2

theorem pairwise_insertionSortLe {α : Type} (le : α → α → Bool)
    (htot : ∀ a b, le a b = true ∨ le b a = true)
    (htrans : ∀ a b c, le a b = true → le b c = true → le a c = true) :
    ∀ l : List α, List.Pairwise (fun x y => le x y = true) (insertionSortLe le l)
  | [] => List.Pairwise.nil
  | a :: l => pairwise_orderedInsertLe le htot htrans a _
      (pairwise_insertionSortLe le htot htrans l)

theorem intLe_total : ∀ a b : Int, intLe a b = true ∨ intLe b a = true := by
  intro a b
  simp only [intLe, decide_eq_true_eq]
  exact le_total a b

theorem intLe_trans : ∀ a b c : Int, intLe a b = true → intLe b c = true →
    intLe a c = true := by
  intro a b c
  simp only [intLe, decide_eq_true_eq]
  exact le_trans

theorem sortInts_eq_of_perm {l1 l2 : List Int} (h : List.Perm l1 l2) :
    insertionSortLe intLe l1 = insertionSortLe intLe l2 := by
  apply List.eq_of_perm_of_sorted (r := fun a b : Int => a ≤ b)
  · exact (perm_insertionSortLe intLe l1).trans
      (h.trans (perm_insertionSortLe intLe l2).symm)
  · exact (pairwise_insertionSortLe intLe intLe_total intLe_trans l1).imp
      (fun hab => by simpa [intLe] using hab)
  · exact (pairwise_insertionSortLe intLe intLe_total intLe_trans l2).imp
      (fun hab => by simpa [intLe] using hab)

theorem lookupD_mem {l : List (Int × LineDiff)} {k : Int}
    (h : k ∈ l.map Prod.fst) : (k, lookupD k l) ∈ l := by
  induction l with
  | nil => simp at h
  | cons p rest ih =>
    by_cases hk : k = p.1
    · simp only [lookupD, hk, if_pos rfl]
      exact List.mem_cons_self _ _
    · simp only [lookupD, hk, if_false]
      rcases List.mem_cons.mp h with h1 | h1
      · exact absurd (by simpa using h1) hk
      · exact List.mem_cons_of_mem _ (ih (by simpa using h1))

theorem lookupD_eq_of_perm : ∀ {l1 l2 : List (Int × LineDiff)},
    List.Perm l1 l2 → (l1.map Prod.fst).Nodup → ∀ k,
    lookupD k l1 = lookupD k l2 := by
  intro l1 l2 h
  induction h with
  | nil => intro _ _; rfl
  | cons p _ ih =>
    intro hnd k
    by_cases hk : k = p.1 <;> simp only [lookupD, hk, if_pos rfl, if_false]
    · rfl
    · exact ih (by simpa using hnd.of_cons) k
  | swap x y l =>
    intro hnd k
    have hxy : y.1 ≠ x.1 := by
      have h1 : y.1 ∉ (x.1 :: List.map Prod.fst l) := (List.nodup_cons.mp hnd).1
      intro he
      exact h1 (by rw [he]; exact List.mem_cons_self _ _)
    by_cases hky : k = y.1 <;> by_cases hkx : k = x.1
    · exact absurd (hky.symm.trans hkx) hxy
    · simp [lookupD, hky, hxy]
    · simp [lookupD, hkx, Ne.symm hxy]
    · simp [lookupD, hky, hkx]
  | trans h12 _ ih12 ih23 =>
    intro hnd k
    have hnd2 := (h12.map Prod.fst).nodup_iff.mp hnd
    exact (ih12 hnd k).trans (ih23 hnd2 k)

theorem map_pairUp_eq_self : ∀ {l : List (Int × LineDiff)},
    (l.map Prod.fst).Nodup →
    (l.map Prod.fst).map (fun k => (k, lookupD k l)) = l := by
  intro l
  induction l with
  | nil => intro _; rfl
  | cons p rest ih =>
    intro hnd
    have hp : p.1 ∉ rest.map Prod.fst := (List.nodup_cons.mp hnd).1
    have h2 : (rest.map Prod.fst).map (fun k => (k, lookupD k (p :: rest)))
        = (rest.map Prod.fst).map (fun k => (k, lookupD k rest)) := by
      apply List.map_congr_left
      intro k hk
      have hkp : ¬ k = p.1 := fun h => hp (h ▸ hk)
      simp [lookupD, hkp]
    simp only [List.map_cons]
    rw [h2, ih (List.nodup_cons.mp hnd).2]
    simp [lookupD]

/-- C6 counterexample: for the concrete empty diff with threshold 3, the
code returns Go's nil slice (modelled by `none`) — it does not return a
non-null empty sequence, contradicting the claim's "not null". -/
theorem clusterChanges_empty_cex : ClusterChanges ⟨[]⟩ 3 = none := rfl

/-- C6 (amended): for every `DiffResult` whose changes map is empty,
`ClusterChanges` returns the nil slice (`none`), a null sequence whose
element list is empty. -/
theorem clusterChanges_empty_nil (diff : DiffResult) (threshold : Int)
    (h : diff.changes = []) :
    ClusterChanges diff threshold = none ∧ clustersOf diff threshold = [] := by
  constructor <;> simp [ClusterChanges, clustersOf, h]

theorem clusterChanges_empty_nil_witness :
    ClusterChanges ⟨[]⟩ 7 = none ∧ clustersOf ⟨[]⟩ 7 = [] :=
  clusterChanges_empty_nil ⟨[]⟩ 7 rfl

/-- C8: for every provider type other than the three recognised constants,
`NewProvider` returns a nil provider together with an error whose message
is "unsupported provider type: " followed by the given type; each of the
three recognised types dispatches to its constructor. -/
theorem newProvider_dispatch {Provider Config : Type}
    (z a s : String)
    (zNew aNew sNew : Config → Option Provider × Option String)
    (t : String) (config : Config)
    (hza : a ≠ z) (hzs : s ≠ z) (has : s ≠ a) :
    (t ≠ z → t ≠ a → t ≠ s →
      NewProvider z a s zNew aNew sNew t config =
        (none, some ("unsupported provider type: " ++ t))) ∧
    NewProvider z a s zNew aNew sNew z config = zNew config ∧
    NewProvider z a s zNew aNew sNew a config = aNew config ∧
    NewProvider z a s zNew aNew sNew s config = sNew config := by
  refine ⟨fun h1 h2 h3 => ?_, ?_, ?_, ?_⟩ <;> simp [NewProvider, *]

theorem newProvider_dispatch_witness :
    NewProvider "zeta" "autocomplete" "sweep"
      (fun _ : Unit => ((some 0 : Option Nat), none))
      (fun _ => (some 1, none)) (fun _ => (some 2, none)) "mystery" () =
      (none, some "unsupported provider type: mystery") ∧
    NewProvider "zeta" "autocomplete" "sweep"
      (fun _ : Unit => ((some 0 : Option Nat), none))
      (fun _ => (some 1, none)) (fun _ => (some 2, none)) "zeta" () =
      (some 0, none) ∧
    NewProvider "zeta" "autocomplete" "sweep"
      (fun _ : Unit => ((some 0 : Option Nat), none))
      (fun _ => (some 1, none)) (fun _ => (some 2, none)) "autocomplete" () =
      (some 1, none) ∧
    NewProvider "zeta" "autocomplete" "sweep"
      (fun _ : Unit => ((some 0 : Option Nat), none))
      (fun _ => (some 1, none)) (fun _ => (some 2, none)) "sweep" () =
      (some 2, none) := by
  have h := newProvider_dispatch "zeta" "autocomplete" "sweep"
    (fun _ : Unit => ((some 0 : Option Nat), none))
    (fun _ => (some 1, none)) (fun _ => (some 2, none)) "mystery" ()
    (by decide) (by decide) (by decide)
  exact ⟨h.1 (by decide) (by decide) (by decide), h.2.1, h.2.2.1, h.2.2.2⟩

theorem extractLoop_eq_take :
    ∀ (cnt : Nat) (i : Int) (newLines : List String), 1 ≤ i →
    extractLoop newLines i cnt =
      some ((newLines.drop (i - 1).toNat).take cnt) := by
  intro cnt
  induction cnt with
  | zero => intro i nl _; simp [extractLoop]
  | succ n ih =>
    intro i nl h
    unfold extractLoop
    by_cases hlt : i - 1 < (nl.length : Int)
    · rw [if_pos hlt, if_pos (by omega), ih (i + 1) nl (by omega)]
      have hidx : (i - 1).toNat < nl.length := by omega
      have h3 : (i - 1).toNat + 1 = (i + 1 - 1).toNat := by omega
      rw [List.drop_eq_getElem_cons hidx, List.take_succ_cons,
        List.getD_eq_getElem nl "" hidx, h3]
    · rw [if_neg hlt]
      have : nl.drop (i - 1).toNat = [] :=
        List.drop_eq_nil_of_le (by omega)
      rw [this, List.take_nil]

theorem extractLines_eq (newLines : List String) (s e : Int) (h : 1 ≤ s) :
    extractLines newLines s e =
      some ((newLines.drop (s - 1).toNat).take (e - s + 1).toNat) :=
  extractLoop_eq_take _ s newLines h

/-- C5: for every cluster with `1 ≤ start_line ≤ end_line` and every
`newLines` slice of any length, `createCompletionFromCluster` never
indexes out of bounds (no panic, modelled by a `some` result); its lines
are the new lines over the cluster range, right-padded with empty strings,
and their count always equals `buffer_end - buffer_start + 1`. -/
theorem createCompletion_no_panic (cluster : ChangeCluster)
    (newLines : List String) (baseLineOffset : Int)
    (h1 : 1 ≤ cluster.startLine) (h2 : cluster.startLine ≤ cluster.endLine) :
    ∃ comp, createCompletionFromCluster cluster newLines baseLineOffset =
      some comp ∧
    comp.startLine = cluster.startLine + baseLineOffset - 1 ∧
    comp.endLineInc = cluster.endLine + baseLineOffset - 1 ∧
    comp.lines =
      (newLines.drop (cluster.startLine - 1).toNat).take
          (cluster.endLine - cluster.startLine + 1).toNat ++
        List.replicate ((cluster.endLine - cluster.startLine + 1).toNat -
          ((newLines.drop (cluster.startLine - 1).toNat).take
            (cluster.endLine - cluster.startLine + 1).toNat).length) "" ∧
    (comp.lines.length : Int) = comp.endLineInc - comp.startLine + 1 := by
  have he := extractLines_eq newLines cluster.startLine cluster.endLine h1
  refine ⟨_, by rw [createCompletionFromCluster, he], rfl, rfl, ?_, ?_⟩
  · show padTo _ _ = _
    unfold padTo
    congr 1
    congr 1
    have hlen := List.length_take
      (cluster.endLine - cluster.startLine + 1).toNat
      (newLines.drop (cluster.startLine - 1).toNat)
    omega
  · show ((padTo _ _).length : Int) = _
    unfold padTo
    have hlen := List.length_take
      (cluster.endLine - cluster.startLine + 1).toNat
      (newLines.drop (cluster.startLine - 1).toNat)
    simp only [List.length_append, List.length_replicate]
    omega

theorem createCompletion_no_panic_witness :
    ∃ comp, createCompletionFromCluster ⟨1, 5, []⟩ ["a", "b"] 10 =
      some comp ∧
    comp.startLine = (1 : Int) + 10 - 1 ∧
    comp.endLineInc = (5 : Int) + 10 - 1 ∧
    comp.lines =
      ((["a", "b"].drop ((1 : Int) - 1).toNat).take
          ((5 : Int) - 1 + 1).toNat ++
        List.replicate (((5 : Int) - 1 + 1).toNat -
          ((["a", "b"].drop ((1 : Int) - 1).toNat).take
            ((5 : Int) - 1 + 1).toNat).length) "") ∧
    (comp.lines.length : Int) = comp.endLineInc - comp.startLine + 1 :=
  createCompletion_no_panic ⟨1, 5, []⟩ ["a", "b"] 10 (by decide) (by decide)

theorem clusterSweep_congr {ch1 ch2 : List (Int × LineDiff)} {t : Int}
    (hl : ∀ k, lookupD k ch1 = lookupD k ch2) :
    ∀ (keys : List Int) (cur : ChangeCluster),
      clusterSweep ch1 t keys cur = clusterSweep ch2 t keys cur := by
  intro keys
  induction keys with
  | nil => intro _; rfl
  | cons n rest ih =>
    intro cur
    simp only [clusterSweep, hl n]
    by_cases h : n - cur.endLine ≤ t
    · rw [if_pos h, if_pos h, ih]
    · rw [if_neg h, if_neg h, ih]

theorem clusterChanges_eq_of_perm (d1 d2 : DiffResult) (t : Int)
    (hperm : List.Perm d1.changes d2.changes)
    (hnd : (d1.changes.map Prod.fst).Nodup) :
    ClusterChanges d1 t = ClusterChanges d2 t := by
  have hkeys : List.Perm (d1.changes.map Prod.fst) (d2.changes.map Prod.fst) :=
    hperm.map _
  have hnd2 : (d2.changes.map Prod.fst).Nodup := hkeys.nodup_iff.mp hnd
  have hlook : ∀ k, lookupD k d1.changes = lookupD k d2.changes :=
    lookupD_eq_of_perm hperm hnd
  have hsort : insertionSortLe intLe ((d2.changes.map Prod.fst).dedup) =
      insertionSortLe intLe ((d1.changes.map Prod.fst).dedup) := by
    rw [List.Nodup.dedup hnd, List.Nodup.dedup hnd2]
    exact sortInts_eq_of_perm hkeys.symm
  by_cases he : d1.changes = []
  · have he2 : d2.changes = [] := (he ▸ hperm).symm.eq_nil
    simp [ClusterChanges, he, he2]
  · have he2 : d2.changes ≠ [] := fun h => he (h ▸ hperm).eq_nil
    simp only [ClusterChanges]
    rw [if_neg (by simpa using he), if_neg (by simpa using he2), hsort]
    cases hs : insertionSortLe intLe ((d1.changes.map Prod.fst).dedup) with
    | nil => rfl
    | cons n rest =>
      simp only [hlook n, clusterSweep_congr hlook]

/-- C7: the staging core is deterministic — its output does not depend on
the iteration order of the changes map.  For any two association lists
that present the same finite map (permutations of each other, keys
unique), `ClusterChanges` and the composed staging core produce identical
results; all remaining inputs are plain values, so two runs on equal
inputs are definitionally equal. -/
theorem staging_deterministic (d1 d2 : DiffResult) (threshold : Int)
    (originalLines newLines : List String) (cursorRow : Int)
    (filePath : String) (baseLineOffset : Int)
    (hperm : List.Perm d1.changes d2.changes)
    (hnd : (d1.changes.map Prod.fst).Nodup) :
    ClusterChanges d1 threshold = ClusterChanges d2 threshold ∧
    stagingCore d1 threshold originalLines newLines cursorRow filePath
        baseLineOffset =
      stagingCore d2 threshold originalLines newLines cursorRow filePath
        baseLineOffset := by
  have h := clusterChanges_eq_of_perm d1 d2 threshold hperm hnd
  exact ⟨h, by simp [stagingCore, clustersOf, h]⟩

theorem staging_deterministic_witness :
    ClusterChanges ⟨[(1, { content := "a" }), (5, { content := "b" })]⟩ 3 =
      ClusterChanges ⟨[(5, { content := "b" }), (1, { content := "a" })]⟩ 3 ∧
    stagingCore ⟨[(1, { content := "a" }), (5, { content := "b" })]⟩ 3
        ["x"] ["y"] 1 "f.go" 1 =
      stagingCore ⟨[(5, { content := "b" }), (1, { content := "a" })]⟩ 3
        ["x"] ["y"] 1 "f.go" 1 :=
  staging_deterministic ⟨[(1, { content := "a" }), (5, { content := "b" })]⟩
    ⟨[(5, { content := "b" }), (1, { content := "a" })]⟩ 3 ["x"] ["y"] 1
    "f.go" 1 (by decide) (by decide)

theorem clusterSweep_join (changes : List (Int × LineDiff)) (t : Int) :
    ∀ (keys : List Int) (cur : ChangeCluster),
      ((clusterSweep changes t keys cur).map ChangeCluster.changes).flatten =
        cur.changes ++ keys.map (fun k => (k, lookupD k changes)) := by
  intro keys
  induction keys with
  | nil => intro cur; simp [clusterSweep]
  | cons n rest ih =>
    intro cur
    simp only [clusterSweep]
    by_cases h : n - cur.endLine ≤ t
    · rw [if_pos h, ih]
      simp
    · rw [if_neg h]
      simp [ih]

/-- C9: clustering partitions the diff's changes — the concatenation of
the clusters' change maps is, as a multiset, exactly the diff's changes
map: no binding is dropped, duplicated, altered or invented. -/
theorem clusterChanges_partition (diff : DiffResult) (threshold : Int)
    (hnd : (diff.changes.map Prod.fst).Nodup) :
    List.Perm (((clustersOf diff threshold).map ChangeCluster.changes).flatten)
      diff.changes := by
  by_cases he : diff.changes = []
  · simp [clustersOf, ClusterChanges, he]
  · unfold clustersOf ClusterChanges
    rw [if_neg (by simpa using he), List.Nodup.dedup hnd]
    have hsortperm : List.Perm
        (insertionSortLe intLe (diff.changes.map Prod.fst))
        (diff.changes.map Prod.fst) := perm_insertionSortLe _ _
    cases hs : insertionSortLe intLe (diff.changes.map Prod.fst) with
    | nil =>
      rw [hs] at hsortperm
      exact absurd (List.map_eq_nil_iff.mp hsortperm.symm.eq_nil) he
    | cons n rest =>
      rw [hs] at hsortperm
      simp only [Option.getD_some, clusterSweep_join]
      have hjoin : ((n, lookupD n diff.changes) ::
          rest.map (fun k => (k, lookupD k diff.changes))) =
          (n :: rest).map (fun k => (k, lookupD k diff.changes)) := rfl
      calc List.Perm
            ((n, lookupD n diff.changes) ::
              rest.map (fun k => (k, lookupD k diff.changes)))
            ((diff.changes.map Prod.fst).map
              (fun k => (k, lookupD k diff.changes))) := by
            rw [hjoin]
            exact hsortperm.map _
        _ = diff.changes := map_pairUp_eq_self hnd

theorem clusterChanges_partition_witness :
    List.Perm (((clustersOf ⟨[(10, { content := "a" }), (25, { content := "b" }),
        (12, { content := "c" })]⟩ 3).map ChangeCluster.changes).flatten)
      [(10, { content := "a" }), (25, { content := "b" }),
        (12, { content := "c" })] :=
  clusterChanges_partition ⟨[(10, { content := "a" }), (25, { content := "b" }),
    (12, { content := "c" })]⟩ 3 (by decide)

/-- Well-formedness of one cluster: its line range is ordered and contains
every key of its change map. -/
def ClusterInv (c : ChangeCluster) : Prop :=
  c.startLine ≤ c.endLine ∧
    ∀ q ∈ c.changes, c.startLine ≤ q.1 ∧ q.1 ≤ c.endLine

theorem clusterSweep_inv (changes : List (Int × LineDiff)) (t : Int)
    (hwf : ∀ p ∈ changes, p.1 ≤ effEndLine p.1 p.2) :
    ∀ (keys : List Int) (cur : ChangeCluster),
      List.Pairwise (· ≤ ·) keys →
      (∀ k ∈ keys, k ∈ changes.map Prod.fst) →
      (∀ k ∈ keys, cur.startLine ≤ k) →
      ClusterInv cur →
      (∀ c ∈ clusterSweep changes t keys cur, ClusterInv c) ∧
      List.Pairwise (fun c1 c2 => c1.endLine + t < c2.startLine)
        (clusterSweep changes t keys cur) ∧
      (∀ c ∈ clusterSweep changes t keys cur,
        c.startLine = cur.startLine ∨ c.startLine ∈ keys) := by
  intro keys
  induction keys with
  | nil =>
    intro cur _ _ _ hcur
    refine ⟨?_, ?_, ?_⟩
    · intro c hc
      rw [List.mem_singleton.mp hc]
      exact hcur
    · exact List.pairwise_singleton _ _
    · intro c hc
      exact Or.inl (by rw [List.mem_singleton.mp hc])
  | cons n rest ih =>
    intro cur hsorted hmem hstart hcur
    have hn : n ∈ changes.map Prod.fst := hmem n (by simp)
    have hwfn : n ≤ effEndLine n (lookupD n changes) := hwf _ (lookupD_mem hn)
    have hsrest : List.Pairwise (· ≤ ·) rest := (List.pairwise_cons.mp hsorted).2
    have hnrest : ∀ k ∈ rest, n ≤ k := (List.pairwise_cons.mp hsorted).1
    have hmemrest : ∀ k ∈ rest, k ∈ changes.map Prod.fst :=
      fun k hk => hmem k (List.mem_cons_of_mem _ hk)
    simp only [clusterSweep]
    by_cases h : n - cur.endLine ≤ t
    · rw [if_pos h]
      have hends : cur.endLine ≤
            (if cur.endLine < effEndLine n (lookupD n changes) then
              effEndLine n (lookupD n changes) else cur.endLine) ∧
          effEndLine n (lookupD n changes) ≤
            (if cur.endLine < effEndLine n (lookupD n changes) then
              effEndLine n (lookupD n changes) else cur.endLine) := by
        by_cases hlt : cur.endLine < effEndLine n (lookupD n changes) <;>
          simp [hlt] <;> omega
      obtain ⟨ih1, ih2, ih3⟩ := ih
        { cur with
          changes := cur.changes ++ [(n, lookupD n changes)],
          endLine := if cur.endLine < effEndLine n (lookupD n changes) then
            effEndLine n (lookupD n changes) else cur.endLine }
        hsrest hmemrest (fun k hk => hstart k (List.mem_cons_of_mem _ hk))
        (by
          refine ⟨le_trans hcur.1 hends.1, ?_⟩
          intro q hq
          rcases List.mem_append.mp hq with hq1 | hq1
          · exact ⟨(hcur.2 q hq1).1, le_trans (hcur.2 q hq1).2 hends.1⟩
          · rw [List.mem_singleton.mp hq1]
            exact ⟨hstart n (by simp), le_trans hwfn hends.2⟩)
      refine ⟨ih1, ih2, ?_⟩
      intro c hc
      rcases ih3 c hc with h1 | h1
      · exact Or.inl h1
      · exact Or.inr (List.mem_cons_of_mem _ h1)
    · rw [if_neg h]
      obtain ⟨ih1, ih2, ih3⟩ := ih
        ⟨n, effEndLine n (lookupD n changes), [(n, lookupD n changes)]⟩
        hsrest hmemrest hnrest
        (by
          refine ⟨hwfn, ?_⟩
          intro q hq
          rw [List.mem_singleton.mp hq]
          exact ⟨le_refl n, hwfn⟩)
      refine ⟨?_, ?_, ?_⟩
      · intro c hc
        rcases List.mem_cons.mp hc with rfl | hc1
        · exact hcur
        · exact ih1 c hc1
      · refine List.Pairwise.cons ?_ ih2
        intro c hc
        rcases ih3 c hc with h1 | h1
        · have h2 : c.startLine = n := h1
          omega
        · have := hnrest _ h1
          omega
      · intro c hc
        rcases List.mem_cons.mp hc with rfl | hc1
        · exact Or.inl rfl
        · rcases ih3 c hc1 with h1 | h1
          · exact Or.inr (h1 ▸ List.mem_cons_self _ _)
          · exact Or.inr (List.mem_cons_of_mem _ h1)

/-- C4 (amended): for every diff whose group-typed changes carry an
`EndLine` at or after their key, and every threshold at least 0, the
clusters satisfy the claimed invariants: within each cluster
`start_line ≤ end_line` with every key inside the range, and the sequence
is pairwise separated by gaps strictly greater than the threshold (hence
pairwise disjoint). -/
theorem clusterChanges_invariants (diff : DiffResult) (threshold : Int)
    (ht : 0 ≤ threshold)
    (hwf : ∀ p ∈ diff.changes, p.1 ≤ effEndLine p.1 p.2) :
    (∀ c ∈ clustersOf diff threshold,
      c.startLine ≤ c.endLine ∧
        ∀ q ∈ c.changes, c.startLine ≤ q.1 ∧ q.1 ≤ c.endLine) ∧
    List.Pairwise (fun c1 c2 => c1.endLine + threshold < c2.startLine)
      (clustersOf diff threshold) := by
  by_cases he : diff.changes = []
  · simp [clustersOf, ClusterChanges, he]
  · unfold clustersOf ClusterChanges
    rw [if_neg (by simpa using he)]
    have hsorted : List.Pairwise (· ≤ ·)
        (insertionSortLe intLe ((diff.changes.map Prod.fst).dedup)) :=
      (pairwise_insertionSortLe intLe intLe_total intLe_trans _).imp
        (fun hab => by simpa [intLe] using hab)
    have hmem : ∀ k ∈ insertionSortLe intLe ((diff.changes.map Prod.fst).dedup),
        k ∈ diff.changes.map Prod.fst := by
      intro k hk
      exact List.mem_dedup.mp ((perm_insertionSortLe _ _).subset hk)
    cases hs : insertionSortLe intLe ((diff.changes.map Prod.fst).dedup) with
    | nil => simp
    | cons n rest =>
      rw [hs] at hsorted hmem
      simp only [Option.getD_some]
      have hn : n ∈ diff.changes.map Prod.fst := hmem n (by simp)
      have hwfn : n ≤ effEndLine n (lookupD n diff.changes) :=
        hwf _ (lookupD_mem hn)
      obtain ⟨h1, h2, _⟩ := clusterSweep_inv diff.changes threshold hwf rest
        ⟨n, effEndLine n (lookupD n diff.changes),
          [(n, lookupD n diff.changes)]⟩
        (List.pairwise_cons.mp hsorted).2
        (fun k hk => hmem k (List.mem_cons_of_mem _ hk))
        (fun k hk => (List.pairwise_cons.mp hsorted).1 k hk)
        ⟨hwfn, by
          intro q hq
          rw [List.mem_singleton.mp hq]
          exact ⟨le_refl n, hwfn⟩⟩
      exact ⟨fun c hc => h1 c hc, h2⟩

/-- C4 counterexample: a modification-group change keyed at new line 10
whose explicit group end line is 5 produces a cluster with
`start_line > end_line` whose key lies outside `[start_line, end_line]`,
falsifying the claim's invariants for an arbitrary `DiffResult`. -/
theorem clusterChanges_invariants_cex :
    ∃ c ∈ clustersOf ⟨[(10,
      { type := .lineModificationGroup, lineNumber := 10, startLine := 10,
        endLine := 5, content := "g" })]⟩ 3,
      ¬ (c.startLine ≤ c.endLine ∧
        ∀ q ∈ c.changes, c.startLine ≤ q.1 ∧ q.1 ≤ c.endLine) := by
  decide

theorem clusterChanges_invariants_witness :
    ((∀ c ∈ clustersOf ⟨[(10, { content := "a" }), (12, { content := "b" }),
        (25, { content := "c" }), (27, { content := "d" })]⟩ 3,
      c.startLine ≤ c.endLine ∧
        ∀ q ∈ c.changes, c.startLine ≤ q.1 ∧ q.1 ≤ c.endLine) ∧
    List.Pairwise (fun c1 c2 => c1.endLine + 3 < c2.startLine)
      (clustersOf ⟨[(10, { content := "a" }), (12, { content := "b" }),
        (25, { content := "c" }), (27, { content := "d" })]⟩ 3)) ∧
    (clustersOf ⟨[(10, { content := "a" }), (12, { content := "b" }),
        (25, { content := "c" }), (27, { content := "d" })]⟩ 3).map
      (fun c => (c.startLine, c.endLine)) = [(10, 12), (25, 27)] ∧
    ShouldSplitCompletion ⟨[(10, { content := "a" }), (12, { content := "b" }),
      (25, { content := "c" }), (27, { content := "d" })]⟩ 3 = true :=
  ⟨clusterChanges_invariants ⟨[(10, { content := "a" }), (12, { content := "b" }),
      (25, { content := "c" }), (27, { content := "d" })]⟩ 3
      (by decide) (by decide),
    by decide, by decide⟩

theorem toInt32_eq_self {n : Int} (h : int32Range n) : toInt32 n = n := by
  unfold int32Range at h
  unfold toInt32
  omega

theorem createCompletion_fields {c : ChangeCluster} {nl : List String}
    {off : Int} {comp : Completion}
    (h : createCompletionFromCluster c nl off = some comp) :
    comp.startLine = c.startLine + off - 1 ∧
    comp.endLineInc = c.endLine + off - 1 := by
  unfold createCompletionFromCluster at h
  cases he : extractLines nl c.startLine c.endLine with
  | none => rw [he] at h; cases h
  | some ls => rw [he] at h; cases h; exact ⟨rfl, rfl⟩

theorem clusterLe_iff (cr off : Int) (a b : ChangeCluster) :
    clusterLe cr off a b = true ↔
      lexLeInt (clusterDistanceFromCursor a cr off, a.startLine)
        (clusterDistanceFromCursor b cr off, b.startLine) := by
  simp only [clusterLe, lexLeInt]
  by_cases h : clusterDistanceFromCursor a cr off =
      clusterDistanceFromCursor b cr off <;> simp [h]

theorem clusterLe_total (cr off : Int) (a b : ChangeCluster) :
    clusterLe cr off a b = true ∨ clusterLe cr off b a = true := by
  rw [clusterLe_iff, clusterLe_iff]
  unfold lexLeInt
  omega

theorem clusterLe_trans (cr off : Int) (a b c : ChangeCluster)
    (h1 : clusterLe cr off a b = true) (h2 : clusterLe cr off b c = true) :
    clusterLe cr off a c = true := by
  rw [clusterLe_iff] at h1 h2 ⊢
  unfold lexLeInt at h1 h2 ⊢
  omega

theorem clusterDistance_eq_gap (c : ChangeCluster) (cursorRow off : Int)
    (hwf : c.startLine ≤ c.endLine) :
    clusterDistanceFromCursor c cursorRow off =
      cursorGapToRange cursorRow (c.startLine + off - 1)
        (c.endLine + off - 1) := by
  simp only [clusterDistanceFromCursor, cursorGapToRange]
  split_ifs <;> omega

theorem forall₂_map_eq {α β γ : Type} {R : α → β → Prop} {f : α → γ}
    {g : β → γ} {l : List α} {st : List β} (h : List.Forall₂ R l st)
    (hfg : ∀ a b, R a b → f a = g b) : l.map f = st.map g := by
  induction h with
  | nil => rfl
  | cons hab _ ih => simp [hfg _ _ hab, ih]

theorem forall₂_mem_right {α β : Type} {R : α → β → Prop} :
    ∀ {l : List α} {st : List β}, List.Forall₂ R l st →
      ∀ b ∈ st, ∃ a ∈ l, R a b := by
  intro l st h
  induction h with
  | nil => intro b hb; cases hb
  | cons hab _ ih =>
    intro b hb
    rcases List.mem_cons.mp hb with rfl | hb1
    · exact ⟨_, by simp, hab⟩
    · obtain ⟨a2, ha2, hr2⟩ := ih b hb1
      exact ⟨a2, List.mem_cons_of_mem _ ha2, hr2⟩

theorem forall₂_pairwise {α β : Type} {R : α → β → Prop} {P : α → α → Prop}
    {Q : β → β → Prop}
    (himp : ∀ a1 b1 a2 b2, R a1 b1 → R a2 b2 → P a1 a2 → Q b1 b2) :
    ∀ {l : List α} {st : List β}, List.Forall₂ R l st →
      List.Pairwise P l → List.Pairwise Q st := by
  intro l st h
  induction h with
  | nil => intro _; exact .nil
  | cons hab htail ih =>
    intro hp
    refine .cons ?_ (ih hp.of_cons)
    intro b hb
    obtain ⟨a2, ha2, hr2⟩ := forall₂_mem_right htail b hb
    exact himp _ _ _ _ hab hr2 (List.rel_of_pairwise_cons hp ha2)

theorem buildStages_spec (newLines : List String) (filePath : String)
    (off : Int) :
    ∀ (l : List ChangeCluster) (st : List CompletionStage),
      buildStages newLines filePath off l = some st →
      List.Forall₂ (fun c s =>
        createCompletionFromCluster c newLines off = some s.completion ∧
        s.cursorTarget.relativePath = filePath) l st
  | [], st, h => by
    simp only [buildStages] at h
    cases h
    exact .nil
  | [c], st, h => by
    simp only [buildStages] at h
    cases hc : createCompletionFromCluster c newLines off with
    | none => rw [hc] at h; cases h
    | some comp =>
      rw [hc] at h
      cases h
      exact .cons ⟨hc, rfl⟩ .nil
  | c :: next :: rest, st, h => by
    simp only [buildStages] at h
    cases hc : createCompletionFromCluster c newLines off with
    | none => rw [hc] at h; cases h
    | some comp =>
      rw [hc] at h
      cases hb : buildStages newLines filePath off (next :: rest) with
      | none => rw [hb] at h; cases h
      | some tail =>
        rw [hb] at h
        cases h
        exact .cons ⟨hc, rfl⟩ (buildStages_spec newLines filePath off _ _ hb)

theorem buildStages_targets (newLines : List String) (filePath : String)
    (off : Int) :
    ∀ (c : ChangeCluster) (l : List ChangeCluster)
      (st : List CompletionStage),
      buildStages newLines filePath off (c :: l) = some st →
      (∀ d ∈ c :: l, int32Range (d.startLine + off - 1) ∧
        int32Range (d.endLine + off - 1)) →
      List.Chain' (fun s1 s2 =>
        s1.cursorTarget.lineNumber = s2.completion.startLine ∧
        s1.cursorTarget.shouldRetrigger = false ∧
        s1.isLastStage = false) st ∧
      (∀ last, st.getLast? = some last →
        last.cursorTarget.lineNumber = last.completion.endLineInc ∧
        last.cursorTarget.shouldRetrigger = true ∧
        last.isLastStage = true) ∧
      st.map (fun s => s.cursorTarget.shouldRetrigger) =
        List.replicate l.length false ++ [true] ∧
      st.map (fun s => s.isLastStage) =
        List.replicate l.length false ++ [true] ∧
      st.head?.map (fun s => s.completion.startLine) =
        some (c.startLine + off - 1) := by
  intro c l
  induction l generalizing c with
  | nil =>
    intro st h hr
    simp only [buildStages] at h
    cases hc : createCompletionFromCluster c newLines off with
    | none => rw [hc] at h; cases h
    | some comp =>
      rw [hc] at h
      cases h
      obtain ⟨hf1, hf2⟩ := createCompletion_fields hc
      refine ⟨List.chain'_singleton _, ?_, by simp, by simp, by simp [hf1]⟩
      intro last hlast
      have hlx : (⟨comp, ⟨filePath, toInt32 (c.endLine + off - 1), true⟩,
          true⟩ : CompletionStage) = last := by
        simpa using hlast
      subst hlx
      refine ⟨?_, rfl, rfl⟩
      show toInt32 (c.endLine + off - 1) = comp.endLineInc
      rw [toInt32_eq_self (hr c (by simp)).2, hf2]
  | cons next rest ih =>
    intro st h hr
    simp only [buildStages] at h
    cases hc : createCompletionFromCluster c newLines off with
    | none => rw [hc] at h; cases h
    | some comp =>
      rw [hc] at h
      cases hb : buildStages newLines filePath off (next :: rest) with
      | none => rw [hb] at h; cases h
      | some tail =>
        rw [hb] at h
        cases h
        obtain ⟨hf1, hf2⟩ := createCompletion_fields hc
        obtain ⟨ihch, ihlast, ihmapR, ihmapL, ihhead⟩ :=
          ih next tail hb (fun d hd => hr d (List.mem_cons_of_mem _ hd))
        have htail_ne : tail ≠ [] := by
          intro hnil
          rw [hnil] at ihmapR
          simp at ihmapR
        refine ⟨?_, ?_, ?_, ?_, by simp [hf1]⟩
        · rw [List.chain'_cons']
          refine ⟨?_, ihch⟩
          intro t0 ht0
          cases ht : tail.head? with
          | none => rw [ht] at ht0; cases ht0
          | some t1 =>
            rw [ht] at ht0 ihhead
            cases ht0
            have ht1 : t0.completion.startLine = next.startLine + off - 1 := by
              simpa using ihhead
            refine ⟨?_, rfl, rfl⟩
            show toInt32 (next.startLine + off - 1) = t0.completion.startLine
            rw [toInt32_eq_self (hr next (by simp)).1, ht1]
        · intro last hlast
          cases tail with
          | nil => exact absurd rfl htail_ne
          | cons t1 ttail =>
            rw [List.getLast?_cons_cons] at hlast
            exact ihlast last hlast
        · simp [ihmapR, List.replicate_succ]
        · simp [ihmapL, List.replicate_succ]

/-- C2 (amended): provided every cluster's buffer coordinates fit in the
`int32` range of the cursor-target wire type, the stages of a non-empty
result link up as claimed: each stage before the last points its cursor
target at the next stage's buffer start without retriggering, the last
stage points at its own buffer end with the retrigger flag, every stage
carries the given file path, and the is-last flag and the retrigger flag
are set on exactly the final stage. -/
theorem createStages_cursor_targets (clusters : List ChangeCluster)
    (originalLines newLines : List String) (cursorRow : Int)
    (filePath : String) (baseLineOffset : Int)
    (stages : List CompletionStage)
    (hrun : CreateStagesFromClusters clusters originalLines newLines
      cursorRow filePath baseLineOffset = some stages)
    (hne : clusters ≠ [])
    (hrange : ∀ c ∈ clusters,
      int32Range (c.startLine + baseLineOffset - 1) ∧
      int32Range (c.endLine + baseLineOffset - 1)) :
    List.Chain' (fun s1 s2 =>
      s1.cursorTarget.lineNumber = s2.completion.startLine ∧
      s1.cursorTarget.shouldRetrigger = false ∧
      s1.isLastStage = false) stages ∧
    (∀ last, stages.getLast? = some last →
      last.cursorTarget.lineNumber = last.completion.endLineInc ∧
      last.cursorTarget.shouldRetrigger = true ∧
      last.isLastStage = true) ∧
    (∀ s ∈ stages, s.cursorTarget.relativePath = filePath) ∧
    stages.map (fun s => s.cursorTarget.shouldRetrigger) =
      List.replicate (stages.length - 1) false ++ [true] ∧
    stages.map (fun s => s.isLastStage) =
      List.replicate (stages.length - 1) false ++ [true] := by
  unfold CreateStagesFromClusters at hrun
  rw [if_neg (by simpa using hne)] at hrun
  have hperm := perm_insertionSortLe (clusterLe cursorRow baseLineOffset)
    clusters
  have hpath : ∀ s ∈ stages, s.cursorTarget.relativePath = filePath := by
    intro s hsmem
    obtain ⟨a, _, hr⟩ := forall₂_mem_right
      (buildStages_spec newLines filePath baseLineOffset _ _ hrun) s hsmem
    exact hr.2
  cases hs : insertionSortLe (clusterLe cursorRow baseLineOffset) clusters with
  | nil =>
    rw [hs] at hperm
    exact absurd hperm.symm.eq_nil hne
  | cons c l =>
    rw [hs] at hrun hperm
    have hr : ∀ d ∈ c :: l,
        int32Range (d.startLine + baseLineOffset - 1) ∧
        int32Range (d.endLine + baseLineOffset - 1) :=
      fun d hd => hrange d (hperm.subset hd)
    obtain ⟨hch, hlast, hmapR, hmapL, _⟩ :=
      buildStages_targets newLines filePath baseLineOffset c l stages hrun hr
    have hlen : stages.length = l.length + 1 := by
      have := congrArg List.length hmapR
      simpa using this
    refine ⟨hch, hlast, hpath, ?_, ?_⟩
    · rw [hmapR, hlen]
      simp
    · rw [hmapL, hlen]
      simp

/-- C2 counterexample: a single cluster at line 2147483648 with base
offset 1.  The only (hence last) stage stores the int32-wrapped cursor
line -2147483648 while its buffer end is 2147483648, so the claimed
equality between the last stage's cursor line and its own buffer end
fails on the code, which narrows the line to an `int32`. -/
theorem createStages_cursor_targets_cex :
    ∃ stages, CreateStagesFromClusters [⟨2147483648, 2147483648, []⟩] [] []
        1 "a" 1 = some stages ∧
      stages.map (fun s => s.isLastStage) = [true] ∧
      ∀ s ∈ stages, s.cursorTarget.lineNumber ≠ s.completion.endLineInc := by
  refine ⟨[⟨⟨2147483648, 2147483648, [""]⟩, ⟨"a", -2147483648, true⟩, true⟩],
    by decide, rfl, ?_⟩
  intro s hs
  rw [List.mem_singleton.mp hs]
  decide

/-- A sample stage: the result of staging the single cluster `[1, 2]` on
two lines with base offset 1. -/
def sampleStage : CompletionStage :=
  ⟨⟨1, 2, ["x", "y"]⟩, ⟨"f", 2, true⟩, true⟩

theorem createStages_cursor_targets_witness :
    List.Chain' (fun s1 s2 =>
      s1.cursorTarget.lineNumber = s2.completion.startLine ∧
      s1.cursorTarget.shouldRetrigger = false ∧
      s1.isLastStage = false) [sampleStage] ∧
    (∀ last, [sampleStage].getLast? = some last →
      last.cursorTarget.lineNumber = last.completion.endLineInc ∧
      last.cursorTarget.shouldRetrigger = true ∧
      last.isLastStage = true) ∧
    (∀ s ∈ [sampleStage], s.cursorTarget.relativePath = "f") ∧
    List.map (fun s => s.cursorTarget.shouldRetrigger) [sampleStage] =
      List.replicate ([sampleStage].length - 1) false ++ [true] ∧
    List.map (fun s => s.isLastStage) [sampleStage] =
      List.replicate ([sampleStage].length - 1) false ++ [true] :=
  createStages_cursor_targets [⟨1, 2, []⟩] [] ["x", "y"] 1 "f" 1
    [sampleStage] (by decide) (by simp)
    (by
      intro c hc
      rw [List.mem_singleton.mp hc]
      exact ⟨⟨by decide, by decide⟩, by decide, by decide⟩)

theorem forall₂_strengthen {α β : Type} {R : α → β → Prop} {Q : α → Prop} :
    ∀ {l : List α} {st : List β}, List.Forall₂ R l st → (∀ a ∈ l, Q a) →
      List.Forall₂ (fun a b => R a b ∧ Q a) l st := by
  intro l st h
  induction h with
  | nil => intro _; exact .nil
  | cons hab _ ih =>
    intro hq
    exact .cons ⟨hab, hq _ (by simp)⟩
      (ih fun a ha => hq a (List.mem_cons_of_mem _ ha))

/-- C3 (amended): provided every cluster is well formed
(`start_line ≤ end_line`, as the Cluster Builder guarantees),
`CreateStagesFromClusters` returns exactly one stage per cluster — the
stages' buffer ranges are a permutation of the clusters' — ordered
ascending by the cursor distance of the stage's buffer range (zero inside
the range, otherwise the gap to the nearer endpoint) with ties broken by
ascending buffer start. -/
theorem createStages_ordering (clusters : List ChangeCluster)
    (originalLines newLines : List String) (cursorRow : Int)
    (filePath : String) (baseLineOffset : Int)
    (stages : List CompletionStage)
    (hrun : CreateStagesFromClusters clusters originalLines newLines
      cursorRow filePath baseLineOffset = some stages)
    (hwf : ∀ c ∈ clusters, c.startLine ≤ c.endLine) :
    stages.length = clusters.length ∧
    List.Perm
      (stages.map (fun s => (s.completion.startLine, s.completion.endLineInc)))
      (clusters.map (fun c => (c.startLine + baseLineOffset - 1,
        c.endLine + baseLineOffset - 1))) ∧
    List.Pairwise (fun s1 s2 =>
      lexLeInt (stageKey cursorRow s1) (stageKey cursorRow s2)) stages := by
  unfold CreateStagesFromClusters at hrun
  by_cases hne : clusters.isEmpty
  · rw [if_pos hne] at hrun
    cases hrun
    have hcl : clusters = [] := by simpa using hne
    subst hcl
    exact ⟨rfl, .refl _, .nil⟩
  · rw [if_neg hne] at hrun
    have hperm : List.Perm
        (insertionSortLe (clusterLe cursorRow baseLineOffset) clusters)
        clusters := perm_insertionSortLe _ _
    have hf2 := buildStages_spec newLines filePath baseLineOffset _ _ hrun
    have hf3 := forall₂_strengthen hf2
      (fun a ha => hwf a (hperm.subset ha))
    have hlen : stages.length = clusters.length := by
      have h1 := hf2.length_eq
      have h2 := hperm.length_eq
      omega
    have hmapeq : (insertionSortLe (clusterLe cursorRow baseLineOffset)
          clusters).map (fun c => (c.startLine + baseLineOffset - 1,
            c.endLine + baseLineOffset - 1)) =
        stages.map (fun s =>
          (s.completion.startLine, s.completion.endLineInc)) :=
      forall₂_map_eq hf2 (fun c s hr => by
        obtain ⟨h1, h2⟩ := createCompletion_fields hr.1
        rw [h1, h2])
    refine ⟨hlen, ?_, ?_⟩
    · rw [← hmapeq]
      exact hperm.map _
    · refine forall₂_pairwise ?_ hf3
        (pairwise_insertionSortLe _ (clusterLe_total cursorRow baseLineOffset)
          (clusterLe_trans cursorRow baseLineOffset) clusters)
      intro c1 s1 c2 s2 hr1 hr2 hp
      obtain ⟨⟨hc1, _⟩, hw1⟩ := hr1
      obtain ⟨⟨hc2, _⟩, hw2⟩ := hr2
      obtain ⟨h11, h12⟩ := createCompletion_fields hc1
      obtain ⟨h21, h22⟩ := createCompletion_fields hc2
      rw [clusterLe_iff] at hp
      unfold stageKey
      rw [h11, h12, h21, h22,
        ← clusterDistance_eq_gap c1 cursorRow baseLineOffset hw1,
        ← clusterDistance_eq_gap c2 cursorRow baseLineOffset hw2]
      unfold lexLeInt at hp ⊢
      simp only at hp ⊢
      omega

/-- C3 counterexample: for the malformed cluster `[20, 1]` (start after
end) next to the cluster `[11, 11]` with the cursor at row 5, the code
sorts by its own distance function (which answers 15 for `[20, 1]`),
while the claim's distance — the gap to the nearer endpoint — is 4, so
the returned order (keys (6,11) then (4,20)) is not ascending in the
claimed distance. -/
theorem createStages_ordering_cex :
    ∃ stages, CreateStagesFromClusters [⟨11, 11, []⟩, ⟨20, 1, []⟩] [] [] 5
        "a" 1 = some stages ∧
      stages.map (stageKey 5) = [(6, 11), (4, 20)] ∧
      ¬ lexLeInt (6, 11) (4, 20) := by
  refine ⟨[⟨⟨11, 11, [""]⟩, ⟨"a", 20, false⟩, false⟩,
    ⟨⟨20, 1, []⟩, ⟨"a", 1, true⟩, true⟩], by decide, by decide, ?_⟩
  unfold lexLeInt
  simp only
  omega

/-- The nearer of two sample stages: buffer lines 1-2, close to the
cursor. -/
def stageNear : CompletionStage := ⟨⟨1, 2, ["a", "b"]⟩, ⟨"f", 5, false⟩, false⟩

/-- The farther of two sample stages: buffer lines 5-6. -/
def stageFar : CompletionStage := ⟨⟨5, 6, ["e", "f"]⟩, ⟨"f", 6, true⟩, true⟩

theorem createStages_ordering_witness :
    [stageNear, stageFar].length =
      ([⟨5, 6, []⟩, ⟨1, 2, []⟩] : List ChangeCluster).length ∧
    List.Perm ([stageNear, stageFar].map (fun s =>
        (s.completion.startLine, s.completion.endLineInc)))
      (([⟨5, 6, []⟩, ⟨1, 2, []⟩] : List ChangeCluster).map (fun c =>
        (c.startLine + 1 - 1, c.endLine + 1 - 1))) ∧
    List.Pairwise (fun s1 s2 =>
      lexLeInt (stageKey 1 s1) (stageKey 1 s2)) [stageNear, stageFar] :=
  createStages_ordering [⟨5, 6, []⟩, ⟨1, 2, []⟩] []
    ["a", "b", "c", "d", "e", "f"] 1 "f" 1 [stageNear, stageFar]
    (by decide) (by decide)

/-- C1: in the Stage Assembler of the newer pipeline (modelled from the
spec, `stageOfCluster`), a cluster all of whose changes are additions
sharing an anchor gets `buffer_start = anchor_old_line_num +
base_line_offset` — the insertion point one line after the anchor — with
`buffer_end = buffer_start + len(lines) - 1`, while a cluster containing
any non-addition change uses `buffer_start = cluster.start_line +
base_line_offset - 1` and `buffer_end = cluster.end_line +
base_line_offset - 1`. -/
theorem stage_pure_addition_anchor (newLines : List String)
    (baseLineOffset : Int) :
    (∀ (c : StageCluster) (anchor : Int), c.changes ≠ [] →
      (∀ q ∈ c.changes, q.2.type = .changeAddition) →
      (∀ q ∈ c.changes, q.2.oldLineNum = anchor) →
      (stageOfCluster c newLines baseLineOffset).bufferStart =
        anchor + baseLineOffset ∧
      (stageOfCluster c newLines baseLineOffset).bufferEnd =
        (stageOfCluster c newLines baseLineOffset).bufferStart +
          (stageOfCluster c newLines baseLineOffset).lines.length - 1) ∧
    (∀ c : StageCluster, (∃ q ∈ c.changes, ¬ q.2.type = .changeAddition) →
      (stageOfCluster c newLines baseLineOffset).bufferStart =
        c.startLine + baseLineOffset - 1 ∧
      (stageOfCluster c newLines baseLineOffset).bufferEnd =
        c.endLine + baseLineOffset - 1) := by
  constructor
  · intro c anchor hne hall hanchor
    have hpure : isPureAddition c = true := by
      unfold isPureAddition
      rw [Bool.and_eq_true, List.all_eq_true]
      constructor
      · cases hc : c.changes with
        | nil => exact absurd hc hne
        | cons q rest => simp [hc]
      · intro q hq
        simp [hall q hq]
    have hanch : clusterAnchor c = anchor := by
      unfold clusterAnchor
      cases hc : c.changes with
      | nil => exact absurd hc hne
      | cons q rest =>
        simp [hanchor q (by rw [hc]; exact List.mem_cons_self _ _)]
    unfold stageOfCluster
    rw [if_pos hpure, hanch]
    constructor
    · rfl
    · show _ + _ - 1 = _
      simp

  · intro c hmixed
    have hpure : ¬ isPureAddition c = true := by
      unfold isPureAddition
      rw [Bool.and_eq_true, List.all_eq_true]
      rintro ⟨-, hall⟩
      obtain ⟨q, hq, hqt⟩ := hmixed
      exact hqt (by simpa using hall q hq)
    unfold stageOfCluster
    rw [if_neg hpure]
    exact ⟨rfl, rfl⟩

/-- The pure-addition cluster of the spec's "additions after existing
content" example: old = ["import numpy as np", ""], eight new lines added
at new-text lines 3-10, all anchored at old line 2. -/
def numpyCluster : StageCluster :=
  ⟨3, 10,
    [(3, ⟨.changeAddition, 3, 2, "def calculate_distance(x1, y1, x2, y2):", ""⟩),
     (4, ⟨.changeAddition, 4, 2, "    return np.sqrt((x2 - x1) ** 2 + (y2 - y1) ** 2)", ""⟩),
     (5, ⟨.changeAddition, 5, 2, "", ""⟩),
     (6, ⟨.changeAddition, 6, 2, "def calculate_angle(x1, y1, x2, y2):", ""⟩),
     (7, ⟨.changeAddition, 7, 2, "    return np.arctan2(y2 - y1, x2 - x1)", ""⟩),
     (8, ⟨.changeAddition, 8, 2, "", ""⟩),
     (9, ⟨.changeAddition, 9, 2, "def calculate_distance_and_angle(x1, y1, x2, y2):", ""⟩),
     (10, ⟨.changeAddition, 10, 2, "    distance = np.sqrt((x2 - x1) ** 2 + (y2 - y1) ** 2)", ""⟩)]⟩

theorem stage_pure_addition_anchor_witness :
    ((stageOfCluster numpyCluster ["import numpy as np", ""] 1).bufferStart =
      2 + 1 ∧
    (stageOfCluster numpyCluster ["import numpy as np", ""] 1).bufferEnd =
      (stageOfCluster numpyCluster ["import numpy as np", ""] 1).bufferStart +
        (stageOfCluster numpyCluster
          ["import numpy as np", ""] 1).lines.length - 1) ∧
    (stageOfCluster numpyCluster ["import numpy as np", ""] 1).bufferStart ≠ 2 ∧
    (stageOfCluster numpyCluster ["import numpy as np", ""] 1).bufferStart = 3 ∧
    (stageOfCluster numpyCluster ["import numpy as np", ""] 1).bufferEnd = 10 :=
  ⟨(stage_pure_addition_anchor ["import numpy as np", ""] 1).1 numpyCluster 2
      (by decide) (by decide) (by decide),
    by decide, by decide, by decide⟩

theorem set_append_length {α : Type} (l1 : List α) (x y : α) :
    (l1 ++ [x]).set l1.length y = l1 ++ [y] := by
  induction l1 with
  | nil => rfl
  | cons a l ih => simp [List.set, ih]

theorem getD_append_length {α : Type} (l1 : List α) (x d : α) :
    (l1 ++ [x]).getD l1.length d = x := by
  induction l1 with
  | nil => rfl
  | cons a l ih => simpa using ih

/-- C10: `CreateStagesFromClusters` does not mutate its inputs.  Run with
its heap effects explicit, it allocates a fresh `sortedClusters` array,
copies the caller's clusters into it, and sorts only that copy: after the
call the caller's clusters array is unchanged, no string array (and in
particular neither `originalLines` nor `newLines`) was touched, and the
returned stages agree with the pure function of the read contents. -/
theorem createStages_frame (h : GoHeap) (clustersRef origRef newRef : Nat)
    (cursorRow : Int) (filePath : String) (baseLineOffset : Int)
    (hvalid : clustersRef < h.clusterArrays.length) :
    readClusters (CreateStagesFromClustersH h clustersRef origRef newRef
        cursorRow filePath baseLineOffset).1 clustersRef =
      readClusters h clustersRef ∧
    (CreateStagesFromClustersH h clustersRef origRef newRef cursorRow
        filePath baseLineOffset).1.stringArrays = h.stringArrays ∧
    (CreateStagesFromClustersH h clustersRef origRef newRef cursorRow
        filePath baseLineOffset).2 =
      CreateStagesFromClusters (readClusters h clustersRef)
        (readStrings h origRef) (readStrings h newRef) cursorRow filePath
        baseLineOffset := by
  by_cases he : (readClusters h clustersRef).isEmpty = true
  · simp [CreateStagesFromClustersH, CreateStagesFromClusters, he]
  · have he2 : ¬ (h.clusterArrays.getD clustersRef []).isEmpty = true := he
    simp only [CreateStagesFromClustersH, CreateStagesFromClusters,
      allocClusters, writeClusters, readClusters, readStrings, if_neg he2]
    have e0 : (h.clusterArrays ++
        [List.replicate (h.clusterArrays.getD clustersRef []).length
          default]).getD clustersRef [] = h.clusterArrays.getD clustersRef [] :=
      List.getD_append _ _ _ _ hvalid
    rw [e0, set_append_length]
    rw [getD_append_length, set_append_length]
    rw [getD_append_length]
    refine ⟨List.getD_append _ _ _ _ hvalid, trivial, rfl⟩

theorem createStages_frame_witness :
    readClusters (CreateStagesFromClustersH ⟨[[⟨1, 2, []⟩]], [["x"], ["y"]]⟩
        0 0 1 1 "f" 1).1 0 =
      readClusters ⟨[[⟨1, 2, []⟩]], [["x"], ["y"]]⟩ 0 ∧
    (CreateStagesFromClustersH ⟨[[⟨1, 2, []⟩]], [["x"], ["y"]]⟩
        0 0 1 1 "f" 1).1.stringArrays = [["x"], ["y"]] ∧
    (CreateStagesFromClustersH ⟨[[⟨1, 2, []⟩]], [["x"], ["y"]]⟩
        0 0 1 1 "f" 1).2 =
      CreateStagesFromClusters
        (readClusters ⟨[[⟨1, 2, []⟩]], [["x"], ["y"]]⟩ 0)
        (readStrings ⟨[[⟨1, 2, []⟩]], [["x"], ["y"]]⟩ 0)
        (readStrings ⟨[[⟨1, 2, []⟩]], [["x"], ["y"]]⟩ 1) 1 "f" 1 :=
  createStages_frame ⟨[[⟨1, 2, []⟩]], [["x"], ["y"]]⟩ 0 0 1 1 "f" 1
    (by decide)
